import Mathlib

/-!
Verification of the lodash.com static-site build pipeline, as implemented in
`gulpfile.js`.  The development shallowly embeds the two components with logic:

* the service-worker redirect compiler of the `build-sw` task (lines 179-196):
  line parsing of the `_redirects` table with the regular expression
  `^[\t ]*(\S+)[\t ]+(\S+)(?:[\t ]+(\S+))?` (global, multiline), the `from`
  pattern pipeline `_.escapeRegExp` / `replace(/\\\*/g, '(.*)')` /
  `replace(/\/$/, '(?:/.|/?$)')` / `replace(/\//g, '\\/')`, the entry template
  `[/^${from}/,'${to}',${status}]`, and the single string replacement of the
  `/*insert_redirect*/` token in `sw.js` (with ECMAScript replacement-text
  processing of `$`-sequences, since `String.prototype.replace` is called with
  a plain string pattern and a plain string replacement);
* the declared task graph (`gulp.task` / `gulp-sequence` declarations) and the
  per-task error-completion choices (`pump(..., cb)` with the shared logging
  callback `cb = e => e && console.log(e.message)` versus promise-returning
  bodies).

Strings are modelled as `List Char`.  Matching behaviour of the emitted
patterns is settled against a small abstract syntax for the fragment of the
target pattern language (JavaScript regular expressions) that the compiler
emits, together with an executable matcher `runRE` for that fragment and a
printer `render` that produces exactly the concrete syntax the compiler
writes.
-/

namespace GulpBuild

/-- The single-quote character, written by code point to keep source plain. -/
def sq : Char := Char.ofNat 39

/-- The backtick character, written by code point to keep source plain. -/
def bq : Char := Char.ofNat 96

/-! ## Character classes

`reRegExpChar` is lodash's `reRegExpChar = /[\\^$.*+?()[\]{}|]/g` character
class (the characters `_.escapeRegExp` escapes).  `isSep` is the gulpfile's
`[\t ]` class.  `isJsSpace` is the ECMAScript `\s` class (so `\S` is its
complement), used by the `(\S+)` token groups.  `lineTerm` is the set of
line terminators that the ECMAScript `.` atom does not match. -/

def reRegExpChar (c : Char) : Bool :=
  c = '\\' || c = '^' || c = '$' || c = '.' || c = '*' || c = '+' || c = '?' ||
  c = '(' || c = ')' || c = '[' || c = ']' || c = '{' || c = '}' || c = '|'

def isSep (c : Char) : Bool := c = '\t' || c = ' '

def isJsSpace (c : Char) : Bool :=
  c = '\t' || c = '\n' || c = Char.ofNat 11 || c = Char.ofNat 12 || c = '\r' ||
  c = ' ' || c = Char.ofNat 0xa0 || c = Char.ofNat 0x1680 ||
  (0x2000 ≤ c.toNat && c.toNat ≤ 0x200a) ||
  c = Char.ofNat 0x2028 || c = Char.ofNat 0x2029 || c = Char.ofNat 0x202f ||
  c = Char.ofNat 0x205f || c = Char.ofNat 0x3000 || c = Char.ofNat 0xfeff

def lineTerm (c : Char) : Bool :=
  c = '\n' || c = '\r' || c = Char.ofNat 0x2028 || c = Char.ofNat 0x2029

/-! ## The `from` pattern pipeline (gulpfile.js lines 184-190) -/

/-- lodash's `_.escapeRegExp`: `string.replace(reRegExpChar, '\\$&')`.  The
pattern is a single-character class, so the global replacement maps each
character independently: a special character `c` becomes `\c`, every other
character stays. -/
def escapeRegExp (s : List Char) : List Char :=
  s.flatMap fun c => if reRegExpChar c then ['\\', c] else [c]

/-- `.replace(/\\\*/g, '(.*)')`: every (leftmost, non-overlapping) occurrence
of the two-character sequence `\*` becomes `(.*)`. -/
def replEscAst : List Char → List Char
  | [] => []
  | [c] => [c]
  | c :: d :: rest =>
    if c = '\\' && d = '*' then '(' :: '.' :: '*' :: ')' :: replEscAst rest
    else c :: replEscAst (d :: rest)

/-- `.replace(/\/$/, '(?:/.|/?$)')`: without the `m` flag, `$` is end of
string, so the pattern matches exactly a final `/`, which is replaced by the
alternation text. -/
def trailSlash (s : List Char) : List Char :=
  if s.getLast? = some '/' then s.dropLast ++ "(?:/.|/?$)".toList else s

/-- One character of `.replace(/\//g, '\\/')`. -/
def slashB (c : Char) : List Char := if c = '/' then ['\\', '/'] else [c]

/-- `.replace(/\//g, '\\/')`: a single-character pattern again, so every `/`
becomes `\/` independently. -/
def escSlashes (s : List Char) : List Char := s.flatMap slashB

/-- The whole `from` pipeline of `build-sw`. -/
def compiledFrom (f : List Char) : List Char :=
  escSlashes (trailSlash (replEscAst (escapeRegExp f)))

/-! ## Per-character views of the pipeline (used in statements) -/

/-- The image of one source character after `escapeRegExp` and the wildcard
replacement (before slash handling). -/
def wildBlock (c : Char) : List Char :=
  if c = '*' then "(.*)".toList else if reRegExpChar c then ['\\', c] else [c]

/-- The image of one source character after the full pipeline, when it is not
a trailing `/`: `*` becomes the capture group `(.*)`; every character that is
special in the target pattern language (lodash's class, plus the pattern
delimiter `/`) is escaped; everything else passes through. -/
def finalBlock (c : Char) : List Char :=
  if c = '*' then "(.*)".toList
  else if reRegExpChar c || c = '/' then ['\\', c]
  else [c]

/-- Number of capture groups of a pattern text in the target language: a `(`
that is not escaped and not followed by `?` opens a capture group. -/
def captureCount : List Char → Nat
  | [] => 0
  | [c] => if c = '(' then 1 else 0
  | c :: d :: rest =>
    if c = '\\' then captureCount rest
    else if c = '(' && d = '?' then captureCount rest
    else if c = '(' then 1 + captureCount (d :: rest)
    else captureCount (d :: rest)

/-! ## Line scanning (gulpfile.js line 183)

With the `m` flag, `^` anchors at the start of the input and after every
ECMAScript LineTerminator (`\n`, `\r`, U+2028, U+2029); since every piece of
the rule pattern (`\S`, `[\t ]`) rejects all four terminators, a match never
spans one and each line yields at most one match, at its start.  `linesOf`
therefore splits the table text at every LineTerminator, and `parseLine` is
the per-line semantics of
`^[\t ]*(\S+)[\t ]+(\S+)(?:[\t ]+(\S+))?`: the token groups `(\S+)` are
maximal runs of non-whitespace and the separators are maximal runs of tab or
space (no backtracking can produce any other division, because the classes
`\S` and `[\t ]` are disjoint). -/

def linesOf : List Char → List (List Char)
  | [] => [[]]
  | c :: rest =>
    if lineTerm c then [] :: linesOf rest
    else
      match linesOf rest with
      | [] => [[c]]
      | l :: ls => (c :: l) :: ls

def nonSpace (c : Char) : Bool := !isJsSpace c

def parseLine (l : List Char) : Option (List Char × List Char × Option (List Char)) :=
  let l1 := l.dropWhile isSep
  let f := l1.takeWhile nonSpace
  let l2 := l1.dropWhile nonSpace
  let s1 := l2.takeWhile isSep
  let l3 := l2.dropWhile isSep
  let t := l3.takeWhile nonSpace
  let l4 := l3.dropWhile nonSpace
  let s2 := l4.takeWhile isSep
  let l5 := l4.dropWhile isSep
  let st := l5.takeWhile nonSpace
  if f.isEmpty then none
  else if s1.isEmpty then none
  else if t.isEmpty then none
  else if s2.isEmpty || st.isEmpty then some (f, t, none)
  else some (f, t, some st)

/-- The template literal of line 192, `[/^${from}/,'${to}',${status}]`: when
the optional status group did not participate, the interpolation of the
`undefined` capture prints the nine characters `undefined`. -/
def mkEntry (f t : List Char) (st : Option (List Char)) : List Char :=
  "[/^".toList ++ compiledFrom f ++ "/,".toList ++ (sq :: t) ++
    sq :: ",".toList ++ st.getD "undefined".toList ++ "]".toList

/-- All compiled entries of a redirect table, in source order. -/
def compile (text : List Char) : List (List Char) :=
  (linesOf text).filterMap fun l =>
    (parseLine l).map fun p => mkEntry p.1 p.2.1 p.2.2

/-! ## Token substitution (gulpfile.js line 194)

`sw.replace('/*insert_redirect*/', entries.join(','))` — a string pattern and
a string replacement: the leftmost occurrence of the pattern is replaced, the
replacement text undergoes ECMAScript `GetSubstitution` processing (with no
capture groups): `$$` yields `$`, `$&` the matched text, a `$`-backtick pair
the text before the match, a `$`-quote pair the text after the match; any
other `$` sequence (in particular `$1`..`$9`, there being no groups) is kept
literally. -/

def firstSplit (pat : List Char) : List Char → Option (List Char × List Char)
  | [] => if pat.isEmpty then some ([], []) else none
  | c :: rest =>
    if pat.isPrefixOf (c :: rest) then some ([], (c :: rest).drop pat.length)
    else
      match firstSplit pat rest with
      | some (p, s) => some (c :: p, s)
      | none => none

def getSub (m b a : List Char) : List Char → List Char
  | [] => []
  | [c] => [c]
  | c :: d :: r =>
    if c = '$' then
      if d = '$' then '$' :: getSub m b a r
      else if d = '&' then m ++ getSub m b a r
      else if d = bq then b ++ getSub m b a r
      else if d = sq then a ++ getSub m b a r
      else '$' :: getSub m b a (d :: r)
    else c :: getSub m b a (d :: r)

/-- `String.prototype.replace` with a string pattern and string replacement. -/
def jsReplaceFirst (pat repl s : List Char) : List Char :=
  match firstSplit pat s with
  | none => s
  | some (p, post) => p ++ getSub pat p post repl ++ post

/-- A replacement text with no active `$` sequence (`$$`, `$&`,
`$`-backtick, `$`-quote); `GetSubstitution` keeps such a text verbatim. -/
def noSubstEscapes : List Char → Bool
  | [] => true
  | [_] => true
  | c :: d :: r =>
    (if c = '$' then !(d = '$' || d = '&' || d = bq || d = sq) else true) &&
      noSubstEscapes (d :: r)

def insertToken : List Char := "/*insert_redirect*/".toList

/-- The whole `build-sw` text transformation: compile the redirect table and
substitute the joined entries for the placeholder token in the service-worker
script. -/
def buildSW (redirects sw : List Char) : List Char :=
  jsReplaceFirst insertToken (List.intercalate ",".toList (compile redirects)) sw

/-- An occurrence of `pat` inside `s`. -/
def Occurs (pat s : List Char) : Prop := ∃ p q, s = p ++ pat ++ q

/-! ## The target pattern language

An abstract syntax for the fragment of JavaScript regular expressions that
the compiler emits, with its standard matching semantics.  `runRE r s` is the
list of possible rests after `r` matches a prefix of `s`; since the emitted
patterns are anchored with a leading `^` and matching proceeds left to right,
end-of-input (`dollar`) is "the rest is empty".  `render` prints a term in
exactly the concrete syntax the compiler writes (escaping lodash's special
characters and the delimiter `/`, a non-capturing `(?:`&#8230;`|`&#8230;`)`
alternation, a trailing `?` option). -/

inductive RE : Type
  | eps : RE
  | chr (c : Char) : RE
  | dot : RE
  | dollar : RE
  | seq (a b : RE) : RE
  | alt (a b : RE) : RE
  | opt (a : RE) : RE

def runRE : RE → List Char → List (List Char)
  | .eps, s => [s]
  | .chr _, [] => []
  | .chr c, d :: s => if d = c then [s] else []
  | .dot, [] => []
  | .dot, d :: s => if lineTerm d then [] else [s]
  | .dollar, s => if s.isEmpty then [[]] else []
  | .seq a b, s => (runRE a s).flatMap (runRE b)
  | .alt a b, s => runRE a s ++ runRE b s
  | .opt a, s => s :: runRE a s

/-- `/^P/.test(input)` for an emitted pattern body `P`. -/
def jsTest (r : RE) (s : List Char) : Bool := !(runRE r s).isEmpty

def specialSlash (c : Char) : Bool := reRegExpChar c || c = '/'

def render : RE → List Char
  | .eps => []
  | .chr c => if specialSlash c then ['\\', c] else [c]
  | .dot => ['.']
  | .dollar => ['$']
  | .seq a b => render a ++ render b
  | .alt a b => '(' :: '?' :: ':' :: (render a ++ '|' :: render b ++ [')'])
  | .opt a => render a ++ ['?']

/-- The literal pattern for a character sequence. -/
def lit (cs : List Char) : RE := cs.foldr (fun c r => RE.seq (RE.chr c) r) RE.eps

/-- The alternation the compiler puts in place of a trailing `/` (after slash
escaping): `(?:\/.|\/?$)`. -/
def dirAlt : RE :=
  RE.alt (RE.seq (RE.chr '/') RE.dot) (RE.seq (RE.opt (RE.chr '/')) RE.dollar)

/-- Modelled from the spec: the meaning claimed for the trailing-separator
alternation, "(separator followed by one more character) OR (optional
separator followed by end-of-string)" — where "character" in the target
pattern language excludes line terminators. -/
def dirAltSpec : List Char → Bool
  | [] => true
  | [c] => c = '/'
  | '/' :: c :: _ => !lineTerm c
  | _ => false

/-! ## The declared task graph (gulpfile.js lines 158-177, 179, 259-262)

Each task's dependency sequence, as declared: a list of stages, each stage a
list of task names run together.  `gulp.task(n, [deps])` declares one stage;
`gulp-sequence(a, b, ...)` declares one stage per argument, an array argument
being a multi-task stage. -/

def decl (n : String) : List (List String) :=
  if n = "build" then
    [["build-headers", "build-metadata", "build-redirects"],
     ["build-css", "build-html", "build-images", "build-js"]]
  else if n = "build-js" then [["build-sw"], ["minify-js", "minify-sw"]]
  else if n = "build-images" then
    [["build-app-icons"], ["build-favicon"], ["minify-images"]]
  else if n = "build-css" then [["minify-css"]]
  else if n = "build-html" then [["minify-html"]]
  else if n = "build-metadata" then [["minify-json", "minify-xml"]]
  else []

def declaredNames : List String :=
  ["build", "build-js", "build-images", "build-css", "build-html", "build-metadata"]

/-- Stage `s1` wholly finishes before stage `s2` starts, under a timing
assignment `sched` mapping each task to its (start, finish) instants. -/
def stageBefore (sched : String → Nat × Nat) (s1 s2 : List String) : Bool :=
  s1.all fun a => s2.all fun b => (sched a).2 < (sched b).1

def stagesOk (sched : String → Nat × Nat) : List (List String) → Bool
  | [] => true
  | s :: rest => rest.all (stageBefore sched s) && stagesOk sched rest

/-- Every task of stage `s` runs within its parent task `n`'s own run. -/
def contained (sched : String → Nat × Nat) (n : String) (s : List String) : Bool :=
  s.all fun a => (sched n).1 ≤ (sched a).1 && (sched a).2 ≤ (sched n).2

/-- Modelled from the spec: the task scheduler itself (gulp with
gulp-sequence) is an external collaborator, not part of the repository's
sources; per the specification a task's dependency stages "execute strictly
in order" (every task of a stage completes before any task of a later stage
starts) and a task's own run envelops the runs of its dependency tasks.  A
timing assignment is a valid run when every declared task satisfies both. -/
def validSched (sched : String → Nat × Nat) : Bool :=
  declaredNames.all fun n =>
    stagesOk sched (decl n) && (decl n).all (contained sched n)

/-- A concrete valid timing assignment for the declared graph. -/
def exampleSched (n : String) : Nat × Nat :=
  if n = "build" then (0, 100)
  else if n = "build-headers" then (1, 2)
  else if n = "build-redirects" then (1, 2)
  else if n = "build-metadata" then (1, 10)
  else if n = "minify-json" then (2, 3)
  else if n = "minify-xml" then (2, 3)
  else if n = "build-css" then (11, 20)
  else if n = "minify-css" then (12, 13)
  else if n = "build-html" then (11, 20)
  else if n = "minify-html" then (12, 13)
  else if n = "build-images" then (11, 40)
  else if n = "build-app-icons" then (12, 13)
  else if n = "build-favicon" then (14, 15)
  else if n = "minify-images" then (16, 17)
  else if n = "build-js" then (11, 40)
  else if n = "build-sw" then (12, 13)
  else if n = "minify-js" then (14, 15)
  else if n = "minify-sw" then (14, 15)
  else (0, 0)

/-! ## Per-task error completion (gulpfile.js lines 28, 150-255) -/

structure JsError : Type where
  message : List Char

/-- The shared callback of line 28, `const cb = e => e && console.log(e.message)`:
its output is what it logs; it signals no failure. -/
def cb : Option JsError → List (List Char)
  | some e => [e.message]
  | none => []

/-- How a task's body reports completion: a `pump` pipeline with the shared
callback `cb`, a `pump` pipeline with no callback at all, or a returned
promise. -/
inductive BodyKind : Type
  | pumpCb : BodyKind
  | pumpNoCb : BodyKind
  | promiseBody : BodyKind
deriving DecidableEq

/-- The completion mechanism each task body uses, read off the gulpfile's
task declarations. -/
def taskBody (n : String) : Option BodyKind :=
  if n = "build-config" then some .promiseBody
  else if n = "build-app-icons" then some .pumpCb
  else if n = "build-favicon" then some .promiseBody
  else if n = "build-headers" then some .promiseBody
  else if n = "build-redirects" then some .promiseBody
  else if n = "build-sw" then some .promiseBody
  else if n = "minify-css" then some .pumpNoCb
  else if n = "minify-html" then some .pumpCb
  else if n = "minify-images" then some .pumpCb
  else if n = "minify-js" then some .pumpCb
  else if n = "minify-json" then some .pumpCb
  else if n = "minify-sw" then some .pumpCb
  else if n = "minify-xml" then some .pumpCb
  else none

/-- Outcome of a body given an optional pipeline error: what is logged, and
whether the task completes successfully.  A body whose pipeline error goes to
`cb` logs the message and still completes; a promise-returning body rejects
(fails) exactly when an error arises; a `pump` with no callback hands the
error to nobody. -/
def runBody : BodyKind → Option JsError → List (List Char) × Bool
  | .pumpCb, e => (cb e, true)
  | .pumpNoCb, e => ([], e.isNone)
  | .promiseBody, e => ([], e.isNone)

/-- Whether a task's own action fails, given each task's optional
pipeline/body error: it fails exactly when its completion mechanism reports
failure (so a body wired to the shared callback never fails, a promise body
fails exactly when an error arises); an undeclared task has no action. -/
def taskFails (err : String → Option JsError) (n : String) : Bool :=
  match taskBody n with
  | some k => !(runBody k (err n)).2
  | none => false

/-- Modelled from the spec: success of `run(name)` over the declared graph
(the scheduler, gulp with gulp-sequence, is external to the repository's
sources).  A run succeeds when every task of every dependency stage succeeds
recursively and the task's own action does not fail; any failure bubbles up,
so the top-level run rejects and the build terminates with a non-zero
outcome.  `fuel` bounds the recursion depth; 3 covers the declared graph
(build → build-js → build-sw). -/
def runOk (fails : String → Bool) : Nat → String → Bool
  | 0, n => !fails n
  | fuel + 1, n =>
    ((decl n).all fun stage => stage.all (runOk fails fuel)) && !fails n

/-! ## The line grammar as a decomposition predicate

`LineMatch l` states, following the rule grammar
`^[\t ]*(\S+)[\t ]+(\S+)(?:[\t ]+(\S+))?`, that `l` decomposes into a
(possibly empty) run of tabs/spaces, a nonempty run of non-whitespace, a
nonempty run of tabs/spaces, a nonempty run of non-whitespace, and an
arbitrary rest (the optional status group never affects whether a line
matches). -/

def Tok (l : List Char) : Prop := l ≠ [] ∧ ∀ c ∈ l, isJsSpace c = false

def Seps (l : List Char) : Prop := ∀ c ∈ l, isSep c = true

def LineMatch (l : List Char) : Prop :=
  ∃ w f s t r, Seps w ∧ Tok f ∧ Seps s ∧ s ≠ [] ∧ Tok t ∧
    l = w ++ (f ++ (s ++ (t ++ r)))

/-! ## Character-class and scanning helpers -/

theorem sep_isJsSpace {c : Char} (h : isSep c = true) : isJsSpace c = true := by
  simp only [isSep, Bool.or_eq_true, decide_eq_true_eq] at h
  rcases h with h | h <;> subst h <;> decide

theorem tok_not_sep {c : Char} (h : isJsSpace c = false) : isSep c = false := by
  cases hc : isSep c
  · rfl
  · rw [sep_isJsSpace hc] at h; cases h

theorem nonSpace_true {c : Char} (h : isJsSpace c = false) : nonSpace c = true := by
  simp [nonSpace, h]

theorem nonSpace_false {c : Char} (h : isJsSpace c = true) : nonSpace c = false := by
  simp [nonSpace, h]

theorem isEmpty_false_of_ne_nil {l : List Char} (h : l ≠ []) : l.isEmpty = false := by
  cases l with
  | nil => exact absurd rfl h
  | cons a l' => rfl

theorem ne_nil_of_not_isEmpty {l : List Char} (h : ¬ l.isEmpty = true) : l ≠ [] :=
  fun hh => h (by rw [hh]; rfl)

theorem takeWhile_app_all {p : Char → Bool} {xs : List Char} (ys : List Char)
    (h : ∀ c ∈ xs, p c = true) :
    (xs ++ ys).takeWhile p = xs ++ ys.takeWhile p := by
  induction xs with
  | nil => simp
  | cons a l ih =>
    simp only [List.cons_append]
    rw [List.takeWhile_cons, if_pos (h a (List.mem_cons_self _ _))]
    exact congrArg (a :: ·) (ih fun c hc => h c (List.mem_cons_of_mem a hc))

theorem dropWhile_app_all {p : Char → Bool} {xs : List Char} (ys : List Char)
    (h : ∀ c ∈ xs, p c = true) :
    (xs ++ ys).dropWhile p = ys.dropWhile p := by
  induction xs with
  | nil => simp
  | cons a l ih =>
    simp only [List.cons_append]
    rw [List.dropWhile_cons, if_pos (h a (List.mem_cons_self _ _))]
    exact ih fun c hc => h c (List.mem_cons_of_mem a hc)

theorem takeWhile_head_false {p : Char → Bool} {ys : List Char}
    (h : ∀ c ∈ ys.head?, p c = false) : ys.takeWhile p = [] := by
  cases ys with
  | nil => rfl
  | cons a l => simp [List.takeWhile_cons, h a rfl]

theorem dropWhile_head_false {p : Char → Bool} {ys : List Char}
    (h : ∀ c ∈ ys.head?, p c = false) : ys.dropWhile p = ys := by
  cases ys with
  | nil => rfl
  | cons a l => simp [List.dropWhile_cons, h a rfl]

theorem takeWhile_all {p : Char → Bool} {xs : List Char}
    (h : ∀ c ∈ xs, p c = true) : xs.takeWhile p = xs := by
  have := @takeWhile_app_all p xs [] h
  simpa using this

theorem dropWhile_all {p : Char → Bool} {xs : List Char}
    (h : ∀ c ∈ xs, p c = true) : xs.dropWhile p = [] := by
  have := @dropWhile_app_all p xs [] h
  simpa using this

/-! ## The tokenizer against the grammar -/

/-- A line that decomposes per the grammar produces a parse (the grammar is
sufficient). -/
theorem parseLine_isSome_of_match {l : List Char} (h : LineMatch l) :
    (parseLine l).isSome = true := by
  obtain ⟨w, f, s, t, r, hw, hf, hs, hsne, ht, rfl⟩ := h
  obtain ⟨hfne, hfc⟩ := hf
  obtain ⟨htne, htc⟩ := ht
  have hfh : ∀ c ∈ (f ++ (s ++ (t ++ r))).head?, isSep c = false := by
    cases f with
    | nil => exact absurd rfl hfne
    | cons a l' =>
      intro c hc
      simp only [List.cons_append, List.head?_cons, Option.mem_def,
        Option.some.injEq] at hc
      subst hc
      exact tok_not_sep (hfc a (List.mem_cons_self _ _))
  have hsh : ∀ c ∈ (s ++ (t ++ r)).head?, nonSpace c = false := by
    cases s with
    | nil => exact absurd rfl hsne
    | cons a l' =>
      intro c hc
      simp only [List.cons_append, List.head?_cons, Option.mem_def,
        Option.some.injEq] at hc
      subst hc
      exact nonSpace_false (sep_isJsSpace (hs a (List.mem_cons_self _ _)))
  have hth : ∀ c ∈ (t ++ r).head?, isSep c = false := by
    cases t with
    | nil => exact absurd rfl htne
    | cons a l' =>
      intro c hc
      simp only [List.cons_append, List.head?_cons, Option.mem_def,
        Option.some.injEq] at hc
      subst hc
      exact tok_not_sep (htc a (List.mem_cons_self _ _))
  have e1 : (w ++ (f ++ (s ++ (t ++ r)))).dropWhile isSep = f ++ (s ++ (t ++ r)) := by
    rw [dropWhile_app_all _ hw, dropWhile_head_false hfh]
  have e2 : (f ++ (s ++ (t ++ r))).takeWhile nonSpace = f := by
    rw [takeWhile_app_all _ fun c hc => nonSpace_true (hfc c hc),
      takeWhile_head_false hsh, List.append_nil]
  have e3 : (f ++ (s ++ (t ++ r))).dropWhile nonSpace = s ++ (t ++ r) := by
    rw [dropWhile_app_all _ fun c hc => nonSpace_true (hfc c hc),
      dropWhile_head_false hsh]
  have e4 : (s ++ (t ++ r)).takeWhile isSep = s := by
    rw [takeWhile_app_all _ hs, takeWhile_head_false hth, List.append_nil]
  have e5 : (s ++ (t ++ r)).dropWhile isSep = t ++ r := by
    rw [dropWhile_app_all _ hs, dropWhile_head_false hth]
  have e6 : (t ++ r).takeWhile nonSpace = t ++ r.takeWhile nonSpace :=
    takeWhile_app_all _ fun c hc => nonSpace_true (htc c hc)
  simp only [parseLine]
  rw [e1, e2, e3, e4, e5, e6]
  simp only [isEmpty_false_of_ne_nil hfne, isEmpty_false_of_ne_nil hsne,
    isEmpty_false_of_ne_nil (List.append_ne_nil_of_left_ne_nil htne _),
    Bool.false_eq_true, if_false]
  split <;> rfl

/-- A line that parses decomposes per the grammar (the grammar is
necessary). -/
theorem lineMatch_of_parseLine_isSome {l : List Char}
    (h : (parseLine l).isSome = true) : LineMatch l := by
  by_cases h1 : ((l.dropWhile isSep).takeWhile nonSpace).isEmpty = true
  · simp only [parseLine] at h
    rw [if_pos h1] at h
    cases h
  by_cases h2 : (((l.dropWhile isSep).dropWhile nonSpace).takeWhile isSep).isEmpty = true
  · simp only [parseLine] at h
    rw [if_neg h1, if_pos h2] at h
    cases h
  by_cases h3 : ((((l.dropWhile isSep).dropWhile nonSpace).dropWhile isSep).takeWhile
      nonSpace).isEmpty = true
  · simp only [parseLine] at h
    rw [if_neg h1, if_neg h2, if_pos h3] at h
    cases h
  refine ⟨l.takeWhile isSep, (l.dropWhile isSep).takeWhile nonSpace,
    ((l.dropWhile isSep).dropWhile nonSpace).takeWhile isSep,
    (((l.dropWhile isSep).dropWhile nonSpace).dropWhile isSep).takeWhile nonSpace,
    (((l.dropWhile isSep).dropWhile nonSpace).dropWhile isSep).dropWhile nonSpace,
    ?_, ?_, ?_, ?_, ?_, ?_⟩
  · exact fun c hc => List.mem_takeWhile_imp hc
  · refine ⟨ne_nil_of_not_isEmpty h1, fun c hc => ?_⟩
    have := List.mem_takeWhile_imp hc
    simpa [nonSpace] using this
  · exact fun c hc => List.mem_takeWhile_imp hc
  · exact ne_nil_of_not_isEmpty h2
  · refine ⟨ne_nil_of_not_isEmpty h3, fun c hc => ?_⟩
    have := List.mem_takeWhile_imp hc
    simpa [nonSpace] using this
  · rw [List.takeWhile_append_dropWhile, List.takeWhile_append_dropWhile,
      List.takeWhile_append_dropWhile, List.takeWhile_append_dropWhile]

/-- Exact token extraction: a line assembled from a `from`, `to` and status
token with single-space separators parses to exactly those tokens, and
without the status part the status capture is absent. -/
theorem parseLine_tokens {f t s : List Char} (hf : Tok f) (ht : Tok t) (hs : Tok s) :
    parseLine (f ++ ' ' :: (t ++ ' ' :: s)) = some (f, t, some s) ∧
      parseLine (f ++ ' ' :: t) = some (f, t, none) := by
  obtain ⟨hfne, hfc⟩ := hf
  obtain ⟨htne, htc⟩ := ht
  obtain ⟨hsne, hsc⟩ := hs
  have hfh : ∀ x : List Char, ∀ c ∈ (f ++ x).head?, isSep c = false := by
    intro x c hc
    cases f with
    | nil => exact absurd rfl hfne
    | cons a l' =>
      simp only [List.cons_append, List.head?_cons, Option.mem_def,
        Option.some.injEq] at hc
      subst hc
      exact tok_not_sep (hfc a (List.mem_cons_self _ _))
  have hth : ∀ x : List Char, ∀ c ∈ (t ++ x).head?, isSep c = false := by
    intro x c hc
    cases t with
    | nil => exact absurd rfl htne
    | cons a l' =>
      simp only [List.cons_append, List.head?_cons, Option.mem_def,
        Option.some.injEq] at hc
      subst hc
      exact tok_not_sep (htc a (List.mem_cons_self _ _))
  have hfA : ∀ x : List Char, (f ++ x).dropWhile isSep = f ++ x := fun x =>
    dropWhile_head_false (hfh x)
  have hfT : ∀ x : List Char, (f ++ ' ' :: x).takeWhile nonSpace = f := by
    intro x
    rw [takeWhile_app_all _ fun c hc => nonSpace_true (hfc c hc)]
    simp [List.takeWhile_cons, nonSpace, isJsSpace]
  have hfD : ∀ x : List Char, (f ++ ' ' :: x).dropWhile nonSpace = ' ' :: x := by
    intro x
    rw [dropWhile_app_all _ fun c hc => nonSpace_true (hfc c hc)]
    simp [List.dropWhile_cons, nonSpace, isJsSpace]
  constructor
  · simp only [parseLine]
    rw [hfA (' ' :: (t ++ ' ' :: s)), hfT, hfD]
    have e4 : (' ' :: (t ++ ' ' :: s)).takeWhile isSep = [' '] := by
      rw [show (' ' :: (t ++ ' ' :: s)) = [' '] ++ (t ++ ' ' :: s) from rfl,
        takeWhile_app_all _ (by intro c hc; simp at hc; subst hc; decide),
        takeWhile_head_false (hth (' ' :: s)), List.append_nil]
    have e5 : (' ' :: (t ++ ' ' :: s)).dropWhile isSep = t ++ ' ' :: s := by
      rw [show (' ' :: (t ++ ' ' :: s)) = [' '] ++ (t ++ ' ' :: s) from rfl,
        dropWhile_app_all _ (by intro c hc; simp at hc; subst hc; decide),
        dropWhile_head_false (hth (' ' :: s))]
    have e6 : (t ++ ' ' :: s).takeWhile nonSpace = t := by
      rw [takeWhile_app_all _ fun c hc => nonSpace_true (htc c hc)]
      simp [List.takeWhile_cons, nonSpace, isJsSpace]
    have e7 : (t ++ ' ' :: s).dropWhile nonSpace = ' ' :: s := by
      rw [dropWhile_app_all _ fun c hc => nonSpace_true (htc c hc)]
      simp [List.dropWhile_cons, nonSpace, isJsSpace]
    have e8 : (' ' :: s).takeWhile isSep = [' '] := by
      rw [show (' ' :: s) = [' '] ++ s from rfl,
        takeWhile_app_all _ (by intro c hc; simp at hc; subst hc; decide)]
      cases s with
      | nil => rfl
      | cons a l' =>
        rw [takeWhile_head_false ?_, List.append_nil]
        intro c hc
        simp only [List.head?_cons, Option.mem_def, Option.some.injEq] at hc
        subst hc
        exact tok_not_sep (hsc a (List.mem_cons_self _ _))
    have e9 : (' ' :: s).dropWhile isSep = s := by
      rw [show (' ' :: s) = [' '] ++ s from rfl,
        dropWhile_app_all _ (by intro c hc; simp at hc; subst hc; decide)]
      exact dropWhile_head_false (by
        cases s with
        | nil => intro c hc; cases hc
        | cons a l' =>
          intro c hc
          simp only [List.head?_cons, Option.mem_def, Option.some.injEq] at hc
          subst hc
          exact tok_not_sep (hsc a (List.mem_cons_self _ _)))
    have e10 : s.takeWhile nonSpace = s :=
      takeWhile_all fun c hc => nonSpace_true (hsc c hc)
    rw [e4, e5, e6, e7, e8, e9, e10]
    simp [isEmpty_false_of_ne_nil hfne, isEmpty_false_of_ne_nil htne,
      isEmpty_false_of_ne_nil hsne]
  · simp only [parseLine]
    rw [hfA (' ' :: t), hfT, hfD]
    have e4 : (' ' :: t).takeWhile isSep = [' '] := by
      rw [show (' ' :: t) = [' '] ++ t from rfl,
        takeWhile_app_all _ (by intro c hc; simp at hc; subst hc; decide)]
      cases t with
      | nil => exact absurd rfl htne
      | cons a l' =>
        rw [takeWhile_head_false ?_, List.append_nil]
        intro c hc
        simp only [List.head?_cons, Option.mem_def, Option.some.injEq] at hc
        subst hc
        exact tok_not_sep (htc a (List.mem_cons_self _ _))
    have e5 : (' ' :: t).dropWhile isSep = t := by
      rw [show (' ' :: t) = [' '] ++ t from rfl,
        dropWhile_app_all _ (by intro c hc; simp at hc; subst hc; decide)]
      exact dropWhile_head_false (by
        cases t with
        | nil => intro c hc; cases hc
        | cons a l' =>
          intro c hc
          simp only [List.head?_cons, Option.mem_def, Option.some.injEq] at hc
          subst hc
          exact tok_not_sep (htc a (List.mem_cons_self _ _)))
    have e6 : t.takeWhile nonSpace = t :=
      takeWhile_all fun c hc => nonSpace_true (htc c hc)
    have e7 : t.dropWhile nonSpace = [] :=
      dropWhile_all fun c hc => nonSpace_true (htc c hc)
    rw [e4, e5, e6, e7]
    simp [isEmpty_false_of_ne_nil hfne, isEmpty_false_of_ne_nil htne]

/-! ## The pipeline, character by character -/

theorem escapeRegExp_head_ne_star (cs : List Char) :
    ∀ {d : Char} {t : List Char}, escapeRegExp cs = d :: t → d ≠ '*' := by
  cases cs with
  | nil => intro d t h; cases h
  | cons c cs' =>
    intro d t h
    by_cases hc : reRegExpChar c = true
    · rw [show escapeRegExp (c :: cs') = '\\' :: c :: escapeRegExp cs' from by
        simp [escapeRegExp, hc]] at h
      cases h
      decide
    · rw [show escapeRegExp (c :: cs') = c :: escapeRegExp cs' from by
        simp [escapeRegExp, hc]] at h
      cases h
      intro he
      subst he
      exact hc (by decide)

theorem replEscAst_cons (c : Char) (l : List Char)
    (h : c = '\\' → l.head? ≠ some '*') :
    replEscAst (c :: l) = c :: replEscAst l := by
  cases l with
  | nil => rfl
  | cons d t =>
    rw [show replEscAst (c :: d :: t) =
        if c = '\\' && d = '*' then '(' :: '.' :: '*' :: ')' :: replEscAst t
        else c :: replEscAst (d :: t) from rfl]
    rw [if_neg]
    simp only [Bool.and_eq_true, decide_eq_true_eq, not_and]
    intro h1 h2
    exact (h h1) (by simp [h2])

/-- The escape plus wildcard-replacement steps act independently on each
source character: an asterisk becomes the capture group `(.*)`, everything
else is kept as `escapeRegExp` left it. -/
theorem replEscAst_escapeRegExp (cs : List Char) :
    replEscAst (escapeRegExp cs) = cs.flatMap wildBlock := by
  induction cs with
  | nil => rfl
  | cons c cs ih =>
    by_cases h1 : c = '*'
    · subst h1
      rw [show escapeRegExp ('*' :: cs) = '\\' :: '*' :: escapeRegExp cs from by
        simp [escapeRegExp, reRegExpChar]]
      rw [show replEscAst ('\\' :: '*' :: escapeRegExp cs) =
          '(' :: '.' :: '*' :: ')' :: replEscAst (escapeRegExp cs) from by
        simp [replEscAst]]
      rw [ih]
      rfl
    · by_cases h2 : reRegExpChar c = true
      · rw [show escapeRegExp (c :: cs) = '\\' :: c :: escapeRegExp cs from by
          simp [escapeRegExp, h2]]
        rw [show replEscAst ('\\' :: c :: escapeRegExp cs) =
            '\\' :: replEscAst (c :: escapeRegExp cs) from by
          rw [show replEscAst ('\\' :: c :: escapeRegExp cs) =
              if '\\' = '\\' && c = '*' then
                '(' :: '.' :: '*' :: ')' :: replEscAst (escapeRegExp cs)
              else '\\' :: replEscAst (c :: escapeRegExp cs) from rfl]
          rw [if_neg]
          simp only [Bool.and_eq_true, decide_eq_true_eq, not_and]
          exact fun _ => h1]
        rw [replEscAst_cons c (escapeRegExp cs) (fun hc => ?_), ih]
        · rw [show (c :: cs).flatMap wildBlock = wildBlock c ++ cs.flatMap wildBlock from
            List.flatMap_cons ..]
          rw [show wildBlock c = ['\\', c] from by simp [wildBlock, h1, h2]]
          rfl
        · cases he : escapeRegExp cs with
          | nil => simp
          | cons d t =>
            simp only [List.head?_cons, ne_eq, Option.some.injEq]
            exact escapeRegExp_head_ne_star cs he
      · rw [show escapeRegExp (c :: cs) = c :: escapeRegExp cs from by
          simp [escapeRegExp, h2]]
        rw [replEscAst_cons c (escapeRegExp cs) (fun hc => absurd (by rw [hc]; decide) h2), ih]
        rw [show (c :: cs).flatMap wildBlock = wildBlock c ++ cs.flatMap wildBlock from
          List.flatMap_cons ..]
        rw [show wildBlock c = [c] from by simp [wildBlock, h1, h2]]
        rfl

theorem wildBlock_ne_nil (c : Char) : wildBlock c ≠ [] := by
  by_cases h1 : c = '*' <;> by_cases h2 : reRegExpChar c = true <;>
    simp [wildBlock, h1, h2]

theorem wildBlock_getLast_ne_slash {c : Char} (h : c ≠ '/') :
    (wildBlock c).getLast? ≠ some '/' := by
  by_cases h1 : c = '*' <;> by_cases h2 : reRegExpChar c = true <;>
    simp [wildBlock, h1, h2, List.getLast?, h]

/-- If the source pattern does not end in `/`, neither does its
escaped-and-wildcarded image. -/
theorem flatMap_wild_getLast {f : List Char} (h : f.getLast? ≠ some '/') :
    (f.flatMap wildBlock).getLast? ≠ some '/' := by
  induction f with
  | nil => simp
  | cons c cs ih =>
    cases cs with
    | nil =>
      simp only [List.getLast?_singleton, ne_eq, Option.some.injEq] at h
      simpa using wildBlock_getLast_ne_slash h
    | cons d cs' =>
      have hne : (d :: cs').flatMap wildBlock ≠ [] := by
        rw [List.flatMap_cons]
        exact List.append_ne_nil_of_left_ne_nil (wildBlock_ne_nil d) _
      rw [List.flatMap_cons, List.getLast?_append_of_ne_nil (wildBlock c) hne]
      exact ih (by rwa [List.getLast?_cons_cons] at h)

theorem escSlashes_flatMap_wild (f : List Char) :
    escSlashes (f.flatMap wildBlock) = f.flatMap finalBlock := by
  unfold escSlashes
  rw [List.flatMap_assoc]
  refine congrArg _ (funext fun c => ?_)
  by_cases h1 : c = '*'
  · subst h1; decide
  · by_cases h2 : reRegExpChar c = true
    · have hcs : c ≠ '/' := fun hh => by rw [hh] at h2; exact absurd h2 (by decide)
      rw [show wildBlock c = ['\\', c] from by simp [wildBlock, h1, h2]]
      rw [show finalBlock c = ['\\', c] from by simp [finalBlock, h1, h2]]
      simp [slashB, hcs]
    · rw [show wildBlock c = [c] from by simp [wildBlock, h1, h2]]
      by_cases h3 : c = '/'
      · subst h3; decide
      · rw [show finalBlock c = [c] from by simp [finalBlock, h1, h2, h3]]
        simp [slashB, h3]

/-- A `from` not ending in the path separator compiles to the concatenation
of the per-character blocks: each `*` contributes the capture group `(.*)`,
each special character (lodash's class plus `/`) is escaped, everything else
is literal. -/
theorem compiledFrom_no_trailing (f : List Char) (h : f.getLast? ≠ some '/') :
    compiledFrom f = f.flatMap finalBlock := by
  unfold compiledFrom trailSlash
  rw [replEscAst_escapeRegExp, if_neg (flatMap_wild_getLast h), escSlashes_flatMap_wild]

/-- A `from` ending in the path separator compiles to the per-character
blocks of its body followed by the slash-escaped alternation
`(?:\/.|\/?$)`. -/
theorem compiledFrom_trailing (f : List Char) :
    compiledFrom (f ++ ['/']) = f.flatMap finalBlock ++ "(?:\\/.|\\/?$)".toList := by
  unfold compiledFrom trailSlash
  rw [replEscAst_escapeRegExp, List.flatMap_append]
  rw [show (['/'] : List Char).flatMap wildBlock = ['/'] from by decide]
  rw [List.getLast?_concat, if_pos rfl, List.dropLast_concat]
  unfold escSlashes
  rw [List.flatMap_append]
  rw [show ("(?:/.|/?$)".toList).flatMap slashB = "(?:\\/.|\\/?$)".toList from by decide]
  rw [show (f.flatMap wildBlock).flatMap slashB = escSlashes (f.flatMap wildBlock) from rfl,
    escSlashes_flatMap_wild]

/-! ## Counting capture groups -/

theorem cc_other {c : Char} (h1 : c ≠ '\\') (h2 : c ≠ '(') (R : List Char) :
    captureCount (c :: R) = captureCount R := by
  cases R with
  | nil => simp [captureCount, h2]
  | cons d t => simp [captureCount, h1, h2]

theorem cc_esc (c : Char) (R : List Char) :
    captureCount ('\\' :: c :: R) = captureCount R := by
  simp [captureCount]

theorem cc_group (R : List Char) :
    captureCount ('(' :: '.' :: '*' :: ')' :: R) = 1 + captureCount R := by
  rw [show captureCount ('(' :: '.' :: '*' :: ')' :: R) =
      1 + captureCount ('.' :: '*' :: ')' :: R) from by simp [captureCount]]
  rw [cc_other (by decide) (by decide), cc_other (by decide) (by decide),
    cc_other (by decide) (by decide)]

theorem cc_flatMap (f : List Char) (R : List Char) :
    captureCount (f.flatMap finalBlock ++ R) = f.count '*' + captureCount R := by
  induction f with
  | nil => simp
  | cons c cs ih =>
    rw [List.flatMap_cons, List.append_assoc]
    by_cases h1 : c = '*'
    · subst h1
      rw [show finalBlock '*' = ['(', '.', '*', ')'] from by decide]
      rw [show ('(' :: '.' :: '*' :: ')' :: ([] : List Char)) ++
          (cs.flatMap finalBlock ++ R) =
          '(' :: '.' :: '*' :: ')' :: (cs.flatMap finalBlock ++ R) from rfl]
      rw [cc_group, ih, List.count_cons]
      simp
      omega
    · by_cases h2 : (reRegExpChar c || c = '/') = true
      · rw [show finalBlock c = ['\\', c] from by simp [finalBlock, h1, h2]]
        rw [show (['\\', c] : List Char) ++ (cs.flatMap finalBlock ++ R) =
            '\\' :: c :: (cs.flatMap finalBlock ++ R) from rfl]
        rw [cc_esc, ih, List.count_cons]
        simp [h1]
      · have hb : c ≠ '\\' := fun hh => by rw [hh] at h2; exact h2 (by decide)
        have hp : c ≠ '(' := fun hh => by rw [hh] at h2; exact h2 (by decide)
        rw [show finalBlock c = [c] from by simp [finalBlock, h1, h2]]
        rw [show ([c] : List Char) ++ (cs.flatMap finalBlock ++ R) =
            c :: (cs.flatMap finalBlock ++ R) from rfl]
        rw [cc_other hb hp, ih, List.count_cons]
        simp [h1]

/-- The count of capture groups of every compiled `from`: one per `*` of the
source, and no other (the directory alternation is non-capturing, every other
`(` is escaped). -/
theorem cc_compiledFrom (f : List Char) :
    captureCount (compiledFrom f) = f.count '*' := by
  by_cases h : f.getLast? = some '/'
  · have h0 : f ≠ [] := by intro hh; rw [hh] at h; cases h
    have hf : f = f.dropLast ++ ['/'] :=
      (List.dropLast_append_getLast? '/' (by rw [h]; rfl)).symm
    rw [hf, compiledFrom_trailing, cc_flatMap]
    rw [show captureCount "(?:\\/.|\\/?$)".toList = 0 from by decide]
    rw [hf, List.count_append]
    simp
  · rw [compiledFrom_no_trailing f h]
    have := cc_flatMap f []
    simpa using this

/-! ## Line splitting and the entry list -/

theorem nil_of_isEmpty {l : List Char} (h : l.isEmpty = true) : l = [] := by
  cases l with
  | nil => rfl
  | cons a t => cases h

theorem linesOf_ne_nil (s : List Char) : linesOf s ≠ [] := by
  cases s with
  | nil => simp [linesOf]
  | cons c rest =>
    rw [linesOf]
    by_cases hc : lineTerm c = true
    · simp [hc]
    · rw [if_neg hc]
      cases linesOf rest <;> simp

/-- Splitting distributes over any line terminator: the lines of
`a ++ sep ++ b` are the lines of `a` followed by the lines of `b`. -/
theorem linesOf_append {sep : Char} (hsep : lineTerm sep = true)
    (a b : List Char) : linesOf (a ++ sep :: b) = linesOf a ++ linesOf b := by
  induction a with
  | nil => simp [linesOf, hsep]
  | cons c a ih =>
    show linesOf (c :: (a ++ sep :: b)) = linesOf (c :: a) ++ linesOf b
    rw [linesOf, linesOf]
    by_cases hc : lineTerm c = true
    · simp [hc, ih]
    · rw [if_neg hc, if_neg hc, ih]
      cases hla : linesOf a with
      | nil => exact absurd hla (linesOf_ne_nil a)
      | cons la ls => simp

/-- A terminator-free text is one single line. -/
theorem linesOf_single {l : List Char} (h : ∀ c ∈ l, lineTerm c = false) :
    linesOf l = [l] := by
  induction l with
  | nil => rfl
  | cons c rest ih =>
    rw [linesOf,
      if_neg (by rw [h c (List.mem_cons_self _ _)]; exact Bool.false_ne_true),
      ih fun d hd => h d (List.mem_cons_of_mem c hd)]

/-- Compilation distributes over the lines: entries come one per matched
rule, in source order. -/
theorem compile_append {sep : Char} (hsep : lineTerm sep = true)
    (a b : List Char) : compile (a ++ sep :: b) = compile a ++ compile b := by
  unfold compile
  rw [linesOf_append hsep, List.filterMap_append]

/-! ## Matching for literal patterns and the directory alternation -/

theorem runRE_lit (f : List Char) :
    ∀ s : List Char, runRE (lit f) s =
      if f.isPrefixOf s then [s.drop f.length] else [] := by
  induction f with
  | nil => intro s; simp [lit, runRE, List.isPrefixOf]
  | cons c cs ih =>
    intro s
    cases s with
    | nil => simp [lit, runRE, List.isPrefixOf]
    | cons d t =>
      show runRE (.seq (.chr c) (lit cs)) (d :: t) = _
      rw [show runRE (.seq (.chr c) (lit cs)) (d :: t) =
          (runRE (.chr c) (d :: t)).flatMap (runRE (lit cs)) from rfl]
      rw [show runRE (.chr c) (d :: t) = if d = c then [t] else [] from rfl]
      by_cases hdc : d = c
      · rw [if_pos hdc]
        simp only [List.flatMap_cons, List.flatMap_nil, List.append_nil, ih t]
        rw [show (c :: cs).isPrefixOf (d :: t) = cs.isPrefixOf t from by
          simp [List.isPrefixOf, hdc]]
        by_cases hp : cs.isPrefixOf t = true <;> simp [hp]
      · rw [if_neg hdc]
        rw [show (c :: cs).isPrefixOf (d :: t) = false from by
          simp [List.isPrefixOf]
          intro hh
          exact absurd hh.symm hdc]
        simp

/-- `/^literal/.test(input)` holds exactly when `literal` is a prefix of the
input. -/
theorem jsTest_lit (f s : List Char) : jsTest (lit f) s = f.isPrefixOf s := by
  rw [jsTest, runRE_lit]
  cases hb : f.isPrefixOf s <;> simp [hb]

theorem render_lit (f : List Char) :
    render (lit f) = f.flatMap fun c => if specialSlash c then ['\\', c] else [c] := by
  induction f with
  | nil => rfl
  | cons c cs ih =>
    show render (.seq (.chr c) (lit cs)) = _
    rw [show render (.seq (.chr c) (lit cs)) = render (.chr c) ++ render (lit cs)
      from rfl, ih, List.flatMap_cons]
    rfl

theorem flatMap_congr_mem {f g : Char → List Char} :
    ∀ {l : List Char}, (∀ c ∈ l, f c = g c) → l.flatMap f = l.flatMap g := by
  intro l
  induction l with
  | nil => intro _; rfl
  | cons c cs ih =>
    intro h
    rw [List.flatMap_cons, List.flatMap_cons, h c (List.mem_cons_self _ _),
      ih fun d hd => h d (List.mem_cons_of_mem c hd)]

theorem finalBlock_eq_specialSlash {c : Char} (h : c ≠ '*') :
    finalBlock c = if specialSlash c then ['\\', c] else [c] := by
  simp [finalBlock, specialSlash, h]

/-- A wildcard-free `from` with no trailing separator compiles to exactly the
printed form of the literal anchored pattern. -/
theorem compiledFrom_lit (f : List Char) (h1 : f.count '*' = 0)
    (h2 : f.getLast? ≠ some '/') : compiledFrom f = render (lit f) := by
  rw [compiledFrom_no_trailing f h2, render_lit]
  refine flatMap_congr_mem fun c hc => ?_
  refine finalBlock_eq_specialSlash fun hh => ?_
  subst hh
  exact absurd (List.count_eq_zero.mp h1) (fun hn => hn hc)

/-- The matching behaviour of the directory alternation `(?:\/.|\/?$)` is
exactly the claimed one: a separator followed by one more character, or an
optional separator followed by the end of the input. -/
theorem jsTest_dirAlt (s : List Char) : jsTest dirAlt s = dirAltSpec s := by
  cases s with
  | nil => decide
  | cons c t =>
    cases t with
    | nil =>
      by_cases hc : c = '/'
      · subst hc; decide
      · simp [jsTest, runRE, dirAlt, dirAltSpec, hc]
    | cons d r =>
      by_cases hc : c = '/'
      · subst hc
        cases hd : lineTerm d <;>
          simp [jsTest, runRE, dirAlt, dirAltSpec, hd]
      · simp [jsTest, runRE, dirAlt, dirAltSpec, hc]

/-! ## The placeholder substitution -/

theorem firstSplit_sound (pat : List Char) :
    ∀ {s p q : List Char}, firstSplit pat s = some (p, q) → s = p ++ pat ++ q := by
  intro s
  induction s with
  | nil =>
    intro p q h
    simp only [firstSplit] at h
    by_cases hp : pat.isEmpty = true
    · rw [if_pos hp] at h
      cases h
      simp [nil_of_isEmpty hp]
    · rw [if_neg hp] at h
      cases h
  | cons c rest ih =>
    intro p q h
    simp only [firstSplit] at h
    by_cases hpre : pat.isPrefixOf (c :: rest) = true
    · rw [if_pos hpre] at h
      obtain ⟨t, ht⟩ := List.isPrefixOf_iff_prefix.mp hpre
      cases h
      rw [← ht, List.drop_left]
      simp
    · rw [if_neg hpre] at h
      cases hfs : firstSplit pat rest with
      | none => rw [hfs] at h; cases h
      | some pr =>
        obtain ⟨p', q'⟩ := pr
        rw [hfs] at h
        cases h
        simp [ih hfs]

theorem firstSplit_of_leftmost (pat : List Char) :
    ∀ {p : List Char} (q : List Char),
      (∀ p' q', p ++ pat ++ q = p' ++ pat ++ q' → p.length ≤ p'.length) →
      firstSplit pat (p ++ pat ++ q) = some (p, q) := by
  intro p
  induction p with
  | nil =>
    intro q _
    simp only [List.nil_append]
    cases pq : (pat ++ q) with
    | nil =>
      have hp : pat = [] := (List.append_eq_nil.mp pq).1
      have hq : q = [] := (List.append_eq_nil.mp pq).2
      subst hp; subst hq
      rfl
    | cons c rest =>
      have hpre : pat.isPrefixOf (c :: rest) = true := by
        rw [← pq]
        exact List.isPrefixOf_iff_prefix.mpr ⟨q, rfl⟩
      simp only [firstSplit]
      rw [if_pos hpre, ← pq, List.drop_left]
  | cons c p' ih =>
    intro q hmin
    have hnp : ¬ pat.isPrefixOf (c :: (p' ++ pat ++ q)) = true := by
      intro hpre
      obtain ⟨t, ht⟩ := List.isPrefixOf_iff_prefix.mp hpre
      have heq : (c :: p') ++ pat ++ q = [] ++ pat ++ t := by
        rw [List.nil_append, ht]
        simp
      have := hmin [] t heq
      simp at this
    show firstSplit pat (c :: (p' ++ pat ++ q)) = some (c :: p', q)
    simp only [firstSplit]
    rw [if_neg hnp]
    have hrec := ih q (fun p'' q'' hh => by
      have heq : (c :: p') ++ pat ++ q = (c :: p'') ++ pat ++ q'' := by
        simp only [List.cons_append, List.append_assoc] at hh ⊢
        rw [hh]
      have := hmin (c :: p'') q'' heq
      simpa using this)
    rw [hrec]

theorem firstSplit_none (pat : List Char) :
    ∀ {s : List Char}, ¬ Occurs pat s → firstSplit pat s = none := by
  intro s
  induction s with
  | nil =>
    intro h
    simp only [firstSplit]
    rw [if_neg]
    intro hp
    exact h ⟨[], [], by simp [nil_of_isEmpty hp]⟩
  | cons c rest ih =>
    intro h
    have h1 : ¬ pat.isPrefixOf (c :: rest) = true := by
      intro hpre
      obtain ⟨t, ht⟩ := List.isPrefixOf_iff_prefix.mp hpre
      exact h ⟨[], t, by rw [← ht]; simp⟩
    have h2 : firstSplit pat rest = none := ih fun hocc => by
      obtain ⟨p, q, hpq⟩ := hocc
      exact h ⟨c :: p, q, by rw [hpq]; rfl⟩
    simp only [firstSplit]
    rw [if_neg h1, h2]

/-- A replacement text with no active `$` sequence passes through
`GetSubstitution` verbatim. -/
theorem getSub_id (m b a : List Char) :
    ∀ {r : List Char}, noSubstEscapes r = true → getSub m b a r = r := by
  intro r
  induction r with
  | nil => intro _; rfl
  | cons c rest ih =>
    intro h
    cases rest with
    | nil => rfl
    | cons d r' =>
      simp only [noSubstEscapes, Bool.and_eq_true] at h
      obtain ⟨h1, h2⟩ := h
      by_cases hc : c = '$'
      · subst hc
        rw [if_pos rfl] at h1
        simp only [Bool.not_eq_eq_eq_not, Bool.not_true, Bool.or_eq_false_iff,
          decide_eq_false_iff_not] at h1
        obtain ⟨⟨⟨hd1, hd2⟩, hd3⟩, hd4⟩ := h1
        rw [show getSub m b a ('$' :: d :: r') =
            '$' :: getSub m b a (d :: r') from by
          simp only [getSub, if_true]
          rw [if_neg hd1, if_neg hd2, if_neg hd3, if_neg hd4]]
        rw [ih h2]
      · rw [show getSub m b a (c :: d :: r') = c :: getSub m b a (d :: r') from by
          simp only [getSub]
          rw [if_neg hc]]
        rw [ih h2]

/-! ## Auxiliary facts used by the claim theorems -/

theorem length_filterMap_parse (L : List (List Char)) :
    (L.filterMap fun l => (parseLine l).map fun p => mkEntry p.1 p.2.1 p.2.2).length
      = (L.filter fun l => (parseLine l).isSome).length := by
  induction L with
  | nil => rfl
  | cons l L ih =>
    rw [List.filterMap_cons, List.filter_cons]
    cases hp : parseLine l with
    | none => simpa [hp] using ih
    | some p => simpa [hp] using ih

theorem lineTerm_isJsSpace {c : Char} (h : lineTerm c = true) :
    isJsSpace c = true := by
  simp only [lineTerm, Bool.or_eq_true, decide_eq_true_eq] at h
  rcases h with ((h | h) | h) | h <;> subst h <;> decide

theorem tok_no_term {l : List Char} (h : ∀ c ∈ l, isJsSpace c = false) :
    ∀ c ∈ l, lineTerm c = false := fun c hc => by
  cases hl : lineTerm c
  · rfl
  · exact absurd (lineTerm_isJsSpace hl) (by simp [h c hc])

theorem runOk_succ (fails : String → Bool) (fuel : Nat) (n : String) :
    runOk fails (fuel + 1) n =
      (((decl n).all fun stage => stage.all (runOk fails fuel)) && !fails n) := rfl

/-- A failure of any promise-returning task of the `build` graph makes the
top-level `build` run fail: the failure bubbles up through its stage. -/
theorem runOk_build_aborts (fails : String → Bool) :
    (fails "build-sw" = true → runOk fails 3 "build" = false) ∧
    (fails "build-favicon" = true → runOk fails 3 "build" = false) ∧
    (fails "build-headers" = true → runOk fails 3 "build" = false) ∧
    (fails "build-redirects" = true → runOk fails 3 "build" = false) := by
  have hdb : decl "build" = [["build-headers", "build-metadata", "build-redirects"],
      ["build-css", "build-html", "build-images", "build-js"]] := by decide
  have hdj : decl "build-js" = [["build-sw"], ["minify-js", "minify-sw"]] := by decide
  have hdi : decl "build-images" = [["build-app-icons"], ["build-favicon"],
      ["minify-images"]] := by decide
  have h1 : ∀ n : String, decl n = [] → ∀ fuel : Nat,
      runOk fails (fuel + 1) n = !fails n := by
    intro n hd fuel
    rw [runOk_succ, hd]
    simp
  refine ⟨fun h => ?_, fun h => ?_, fun h => ?_, fun h => ?_⟩
  · have e1 : runOk fails 1 "build-sw" = false := by
      rw [show (1 : Nat) = 0 + 1 from rfl, h1 "build-sw" (by decide) 0]
      simp [h]
    have e2 : runOk fails 2 "build-js" = false := by
      rw [show (2 : Nat) = 1 + 1 from rfl, runOk_succ, hdj]
      simp [e1]
    rw [show (3 : Nat) = 2 + 1 from rfl, runOk_succ, hdb]
    simp [e2]
  · have e1 : runOk fails 1 "build-favicon" = false := by
      rw [show (1 : Nat) = 0 + 1 from rfl, h1 "build-favicon" (by decide) 0]
      simp [h]
    have e2 : runOk fails 2 "build-images" = false := by
      rw [show (2 : Nat) = 1 + 1 from rfl, runOk_succ, hdi]
      simp [e1]
    rw [show (3 : Nat) = 2 + 1 from rfl, runOk_succ, hdb]
    simp [e2]
  · have e1 : runOk fails 2 "build-headers" = false := by
      rw [show (2 : Nat) = 1 + 1 from rfl, h1 "build-headers" (by decide) 1]
      simp [h]
    rw [show (3 : Nat) = 2 + 1 from rfl, runOk_succ, hdb]
    simp [e1]
  · have e1 : runOk fails 2 "build-redirects" = false := by
      rw [show (2 : Nat) = 1 + 1 from rfl, h1 "build-redirects" (by decide) 1]
      simp [h]
    rw [show (3 : Nat) = 2 + 1 from rfl, runOk_succ, hdb]
    simp [e1]

/-- The cross-stage completion/start facts of the claim: every first-stage
task of `build` finishes before every second-stage task starts, and inside
`build-js` the `build-sw` stage finishes before the minification stage
starts. -/
def StageFacts (sched : String → Nat × Nat) : Prop :=
  (sched "build-headers").2 < (sched "build-css").1 ∧
  (sched "build-headers").2 < (sched "build-html").1 ∧
  (sched "build-headers").2 < (sched "build-images").1 ∧
  (sched "build-headers").2 < (sched "build-js").1 ∧
  (sched "build-metadata").2 < (sched "build-css").1 ∧
  (sched "build-metadata").2 < (sched "build-html").1 ∧
  (sched "build-metadata").2 < (sched "build-images").1 ∧
  (sched "build-metadata").2 < (sched "build-js").1 ∧
  (sched "build-redirects").2 < (sched "build-css").1 ∧
  (sched "build-redirects").2 < (sched "build-html").1 ∧
  (sched "build-redirects").2 < (sched "build-images").1 ∧
  (sched "build-redirects").2 < (sched "build-js").1 ∧
  (sched "build-sw").2 < (sched "minify-js").1 ∧
  (sched "build-sw").2 < (sched "minify-sw").1

/-! ## The claims -/

/-- C1: the compiler escapes every character of `from` that is special in
the target pattern language except the wildcard `*`, which becomes the
greedy capture group `(.*)`; consequently the compiled matcher has exactly
one capture group per `*` of the source, in left-to-right order (zero
wildcards, zero groups), the trailing-separator alternation being
non-capturing.  The concrete conjunct shows the per-character form on
`/a*b*`. -/
theorem C1_escape_except_wildcard (f : List Char) :
    (f.getLast? ≠ some '/' → compiledFrom f = f.flatMap finalBlock) ∧
    captureCount (compiledFrom f) = f.count '*' ∧
    compiledFrom "/a*b*".toList = "\\/a(.*)b(.*)".toList := by
  exact ⟨fun h => compiledFrom_no_trailing f h, cc_compiledFrom f, by decide⟩

/-- C2: a `from` ending in the path separator has its trailing separator
replaced by exactly the alternation `(?:\/.|\/?$)` — a separator followed by
one more character, or an optional separator followed by end of input.  For
the rule `/old/ /new/ 301` the compiled matcher matches `/old/`, `/old` and
a single-segment suffix such as `/old/contact`, and the status literal is
`301`. -/
theorem C2_trailing_separator_alternation (f : List Char) :
    compiledFrom (f ++ ['/']) = f.flatMap finalBlock ++ render dirAlt ∧
    (∀ s : List Char, jsTest dirAlt s = dirAltSpec s) ∧
    compile "/old/ /new/ 301\n".toList =
      [mkEntry "/old/".toList "/new/".toList (some "301".toList)] ∧
    mkEntry "/old/".toList "/new/".toList (some "301".toList) =
      "[/^".toList ++ render (RE.seq (lit "/old".toList) dirAlt) ++ "/,".toList ++
        (sq :: "/new/".toList) ++ sq :: ",301]".toList ∧
    jsTest (RE.seq (lit "/old".toList) dirAlt) "/old/".toList = true ∧
    jsTest (RE.seq (lit "/old".toList) dirAlt) "/old".toList = true ∧
    jsTest (RE.seq (lit "/old".toList) dirAlt) "/old/contact".toList = true := by
  refine ⟨?_, jsTest_dirAlt, by decide, by decide, by decide, by decide, by decide⟩
  rw [compiledFrom_trailing,
    show render dirAlt = "(?:\\/.|\\/?$)".toList from by decide]

/-- C3 (amended): a line produces a compiled entry exactly when it matches
the rule grammar, so non-matching lines — blank lines and lines without two
tab/space-separated tokens — contribute nothing, and the total compiler
raises no error (it is a total function); however, a comment line with two
or more tokens, such as `# comment`, does match the grammar and produces an
entry.  Lines are delimited by every ECMAScript line terminator: after a
bare carriage return the anchored grammar matches again, as the `a\rb c`
conjunct shows. -/
theorem C3_nonmatching_lines_skipped (text : List Char) :
    (compile text).length =
      ((linesOf text).filter fun l => (parseLine l).isSome).length ∧
    parseLine ([] : List Char) = none ∧
    parseLine "# comment".toList = some ("#".toList, "comment".toList, none) ∧
    compile "a\rb c".toList = [mkEntry "b".toList "c".toList none] := by
  exact ⟨length_filterMap_parse (linesOf text), rfl, by decide, by decide⟩

/-- C3 counterexample: the comment line `# comment` produces a compiled
entry (`from` = `#`, `to` = `comment`), contrary to the claim that comment
lines produce zero entries. -/
theorem C3_comment_line_produces_entry :
    compile "# comment".toList = [mkEntry "#".toList "comment".toList none] ∧
    compile "# comment".toList ≠ [] := by
  exact ⟨by decide, by decide⟩

/-- C4 (amended): a line produces a compiled entry if and only if it matches
the grammar `^[\t ]*(\S+)[\t ]+(\S+)(?:[\t ]+(\S+))?`, where only leading
tabs and spaces are skipped; leading list-marker characters are NOT ignored
— a leading marker is captured as the `from` token itself. -/
theorem C4_line_grammar (l : List Char) :
    (parseLine l).isSome = true ↔ LineMatch l :=
  ⟨lineMatch_of_parseLine_isSome, parseLine_isSome_of_match⟩

/-- C4 counterexample: on the line `- /a /b` the list marker `-` is parsed
as the `from` field (with `to` = `/a` and status `/b`), not ignored. -/
theorem C4_list_marker_not_ignored :
    parseLine "- /a /b".toList =
      some ("-".toList, "/a".toList, some "/b".toList) ∧
    ("-".toList : List Char) ≠ "/a".toList := by
  exact ⟨by decide, by decide⟩

/-- C5 (amended): compiled entries come one per matched rule in source order
(compilation distributes over concatenation at every line terminator), and
the comma-joined concatenation replaces the first occurrence of the
placeholder token — verbatim whenever it contains no active ECMAScript
replacement `$`-sequence (`$$`, `$&`, backtick or quote pair; ordinary `$1`
back-references are inactive because the pattern is a plain string with no
groups). -/
theorem C5_order_and_substitution (sep : Char) (t1 t2 sw pre post : List Char)
    (hsep : lineTerm sep = true)
    (hsw : firstSplit insertToken sw = some (pre, post))
    (hns : noSubstEscapes
      (List.intercalate ",".toList (compile (t1 ++ sep :: t2))) = true) :
    compile (t1 ++ sep :: t2) = compile t1 ++ compile t2 ∧
    sw = pre ++ insertToken ++ post ∧
    buildSW (t1 ++ sep :: t2) sw =
      pre ++ List.intercalate ",".toList (compile (t1 ++ sep :: t2)) ++ post := by
  refine ⟨compile_append hsep t1 t2, firstSplit_sound _ hsw, ?_⟩
  unfold buildSW jsReplaceFirst
  rw [hsw]
  show pre ++ getSub insertToken pre post
      (List.intercalate ",".toList (compile (t1 ++ sep :: t2))) ++ post = _
  rw [getSub_id _ _ _ hns]

/-- C5 witness: the theorem applied to the two-rule table
`/a /b 301` and `/c /d` and a script with one placeholder. -/
theorem C5_order_and_substitution_witness :
    firstSplit insertToken "x/*insert_redirect*/y".toList =
      some ("x".toList, "y".toList) ∧
    noSubstEscapes (List.intercalate ",".toList
      (compile ("/a /b 301".toList ++ '\n' :: "/c /d".toList))) = true ∧
    (compile ("/a /b 301".toList ++ '\n' :: "/c /d".toList) =
        compile "/a /b 301".toList ++ compile "/c /d".toList ∧
      "x/*insert_redirect*/y".toList = "x".toList ++ insertToken ++ "y".toList ∧
      buildSW ("/a /b 301".toList ++ '\n' :: "/c /d".toList)
          "x/*insert_redirect*/y".toList =
        "x".toList ++ List.intercalate ",".toList
          (compile ("/a /b 301".toList ++ '\n' :: "/c /d".toList)) ++ "y".toList) :=
  ⟨by decide, by decide,
    C5_order_and_substitution '\n' "/a /b 301".toList "/c /d".toList
      "x/*insert_redirect*/y".toList "x".toList "y".toList (by decide) (by decide)
      (by decide)⟩

/-- C5 counterexample: when a target contains `$$`, the text substituted for
the placeholder is NOT the comma-joined concatenation of the compiled
entries (the `$$` collapses to `$` under ECMAScript replacement-text
processing). -/
theorem C5_dollar_processing :
    buildSW "/a /b$$ 301".toList "x/*insert_redirect*/y".toList ≠
      "x".toList ++ List.intercalate ",".toList (compile "/a /b$$ 301".toList) ++
        "y".toList := by
  decide

/-- C6 (amended): `to` and `status` are emitted verbatim into the compiled
triple — never escaped, never validated — and an absent status is emitted as
the literal `undefined`; that literal is distinct from explicit falsy status
tokens such as `0`, but coincides with an explicitly written `undefined`
token. -/
theorem C6_verbatim_passthrough (f t s : List Char)
    (hf : Tok f) (ht : Tok t) (hs : Tok s) :
    compile (f ++ ' ' :: (t ++ ' ' :: s)) =
      ["[/^".toList ++ compiledFrom f ++ "/,".toList ++ (sq :: t) ++
        sq :: ",".toList ++ s ++ "]".toList] ∧
    compile (f ++ ' ' :: t) =
      ["[/^".toList ++ compiledFrom f ++ "/,".toList ++ (sq :: t) ++
        sq :: ",".toList ++ "undefined".toList ++ "]".toList] := by
  obtain ⟨h1, h2⟩ := parseLine_tokens hf ht hs
  have hsp : lineTerm ' ' = false := by decide
  constructor
  · have hline : linesOf (f ++ ' ' :: (t ++ ' ' :: s)) =
        [f ++ ' ' :: (t ++ ' ' :: s)] := by
      refine linesOf_single fun c hc => ?_
      rcases List.mem_append.mp hc with h | h
      · exact tok_no_term hf.2 c h
      · rcases List.mem_cons.mp h with h | h
        · exact h ▸ hsp
        · rcases List.mem_append.mp h with h | h
          · exact tok_no_term ht.2 c h
          · rcases List.mem_cons.mp h with h | h
            · exact h ▸ hsp
            · exact tok_no_term hs.2 c h
    unfold compile
    rw [hline, List.filterMap_cons, h1]
    simp [mkEntry]
  · have hline : linesOf (f ++ ' ' :: t) = [f ++ ' ' :: t] := by
      refine linesOf_single fun c hc => ?_
      rcases List.mem_append.mp hc with h | h
      · exact tok_no_term hf.2 c h
      · rcases List.mem_cons.mp h with h | h
        · exact h ▸ hsp
        · exact tok_no_term ht.2 c h
    unfold compile
    rw [hline, List.filterMap_cons, h2]
    simp [mkEntry]

/-- C6 witness: the theorem applied to the rule `/a /b 301`. -/
theorem C6_verbatim_witness :
    compile "/a /b 301".toList =
      ["[/^".toList ++ compiledFrom "/a".toList ++ "/,".toList ++
        (sq :: "/b".toList) ++ sq :: ",".toList ++ "301".toList ++ "]".toList] := by
  have h := C6_verbatim_passthrough "/a".toList "/b".toList "301".toList
    ⟨by decide, by decide⟩ ⟨by decide, by decide⟩ ⟨by decide, by decide⟩
  have he : ("/a /b 301".toList : List Char) =
      "/a".toList ++ ' ' :: ("/b".toList ++ ' ' :: "301".toList) := by decide
  rw [he]
  exact h.1

/-- C6 counterexample: a rule with no status and a rule whose status token is
the explicitly written falsy `undefined` compile to identical entries, so
the absent-status literal is not distinct from every explicitly written
falsy status (it is distinct from `0`). -/
theorem C6_undefined_status_collision :
    compile "/a /b".toList = compile "/a /b undefined".toList ∧
    compile "/a /b".toList ≠ [] ∧
    compile "/a /b".toList ≠ compile "/a /b 0".toList := by
  exact ⟨by decide, by decide, by decide⟩

/-- C7: a `from` with no wildcard and no trailing separator compiles to the
anchored literal pattern, whose matcher accepts exactly the inputs that
begin with the literal `from` — so not only the exact path (a rule for
`/old` also matches `/oldies`, see the witness). -/
theorem C7_start_anchored_only (f : List Char) (h1 : f.count '*' = 0)
    (h2 : f.getLast? ≠ some '/') :
    compiledFrom f = render (lit f) ∧
    ∀ input : List Char, jsTest (lit f) input = f.isPrefixOf input :=
  ⟨compiledFrom_lit f h1 h2, fun input => jsTest_lit f input⟩

/-- C7 witness: the rule `/old` also matches the input `/oldies`. -/
theorem C7_start_anchored_witness :
    compiledFrom "/old".toList = render (lit "/old".toList) ∧
    jsTest (lit "/old".toList) "/oldies".toList =
      ("/old".toList).isPrefixOf "/oldies".toList ∧
    ("/old".toList).isPrefixOf "/oldies".toList = true := by
  have h := C7_start_anchored_only "/old".toList (by decide) (by decide)
  exact ⟨h.1, h.2 "/oldies".toList, by decide⟩

/-- C8: in every valid run of the declared graph, each task of the first
`build` stage (build-headers, build-metadata, build-redirects) completes
before any task of the second stage (build-css, build-html, build-images,
build-js) starts, and within build-js the build-sw stage completes before
minify-js or minify-sw starts. -/
theorem C8_stage_ordering (sched : String → Nat × Nat)
    (h : validSched sched = true) : StageFacts sched := by
  rw [validSched] at h
  have hb := (List.all_eq_true.mp h) "build" (by simp [declaredNames])
  have hj := (List.all_eq_true.mp h) "build-js" (by simp [declaredNames])
  rw [show decl "build" = [["build-headers", "build-metadata", "build-redirects"],
      ["build-css", "build-html", "build-images", "build-js"]] from by decide] at hb
  rw [show decl "build-js" = [["build-sw"], ["minify-js", "minify-sw"]]
    from by decide] at hj
  simp only [stagesOk, stageBefore, contained, List.all_cons, List.all_nil,
    Bool.and_eq_true, decide_eq_true_eq, and_true, true_and] at hb hj
  unfold StageFacts
  tauto

/-- C8 witness: a concrete valid schedule of the declared graph, with the
ordering facts obtained through the theorem. -/
theorem C8_stage_ordering_witness :
    validSched exampleSched = true ∧ StageFacts exampleSched :=
  ⟨by decide, C8_stage_ordering exampleSched (by decide)⟩

/-- C9 (amended): an error in a pipeline wired to the shared callback is
only logged (its message) and the task still completes, whereas an error in
a promise-returning body (build-sw, build-favicon, build-headers,
build-redirects) rejects that task and aborts the top-level `build` run;
the choice is per task — but it is not true of every minification task:
minify-css's pipeline is given no callback at all. -/
theorem C9_per_task_error_policy :
    (∀ e : JsError, runBody .pumpCb (some e) = ([e.message], true)) ∧
    runBody .pumpCb none = ([], true) ∧
    (∀ e : JsError, runBody .promiseBody (some e) = ([], false)) ∧
    runBody .promiseBody none = ([], true) ∧
    taskBody "minify-html" = some .pumpCb ∧
    taskBody "minify-images" = some .pumpCb ∧
    taskBody "minify-js" = some .pumpCb ∧
    taskBody "minify-json" = some .pumpCb ∧
    taskBody "minify-sw" = some .pumpCb ∧
    taskBody "minify-xml" = some .pumpCb ∧
    taskBody "minify-css" = some .pumpNoCb ∧
    taskBody "build-sw" = some .promiseBody ∧
    taskBody "build-favicon" = some .promiseBody ∧
    taskBody "build-headers" = some .promiseBody ∧
    taskBody "build-redirects" = some .promiseBody ∧
    taskBody "minify-html" ≠ taskBody "build-sw" ∧
    (∀ (err : String → Option JsError) (e : JsError),
      err "build-sw" = some e →
        taskFails err "build-sw" = true ∧
        runOk (taskFails err) 3 "build" = false) ∧
    (∀ (err : String → Option JsError) (e : JsError),
      err "build-favicon" = some e →
        taskFails err "build-favicon" = true ∧
        runOk (taskFails err) 3 "build" = false) ∧
    (∀ (err : String → Option JsError) (e : JsError),
      err "build-headers" = some e →
        taskFails err "build-headers" = true ∧
        runOk (taskFails err) 3 "build" = false) ∧
    (∀ (err : String → Option JsError) (e : JsError),
      err "build-redirects" = some e →
        taskFails err "build-redirects" = true ∧
        runOk (taskFails err) 3 "build" = false) ∧
    (∀ err : String → Option JsError, taskFails err "minify-html" = false) ∧
    runOk (fun _ => false) 3 "build" = true := by
  refine ⟨fun e => rfl, rfl, fun e => rfl, rfl, by decide, by decide, by decide,
    by decide, by decide, by decide, by decide, by decide, by decide, by decide,
    by decide, by decide, ?_, ?_, ?_, ?_, fun err => rfl, by decide⟩
  · intro err e h
    have hf : taskFails err "build-sw" = true := by
      rw [show taskFails err "build-sw" =
        !(runBody BodyKind.promiseBody (err "build-sw")).2 from rfl, h]
      rfl
    exact ⟨hf, (runOk_build_aborts (taskFails err)).1 hf⟩
  · intro err e h
    have hf : taskFails err "build-favicon" = true := by
      rw [show taskFails err "build-favicon" =
        !(runBody BodyKind.promiseBody (err "build-favicon")).2 from rfl, h]
      rfl
    exact ⟨hf, (runOk_build_aborts (taskFails err)).2.1 hf⟩
  · intro err e h
    have hf : taskFails err "build-headers" = true := by
      rw [show taskFails err "build-headers" =
        !(runBody BodyKind.promiseBody (err "build-headers")).2 from rfl, h]
      rfl
    exact ⟨hf, (runOk_build_aborts (taskFails err)).2.2.1 hf⟩
  · intro err e h
    have hf : taskFails err "build-redirects" = true := by
      rw [show taskFails err "build-redirects" =
        !(runBody BodyKind.promiseBody (err "build-redirects")).2 from rfl, h]
      rfl
    exact ⟨hf, (runOk_build_aborts (taskFails err)).2.2.2 hf⟩

/-- C9 counterexample: minify-css is a minification task whose pipeline is
not wired to the shared callback (its `pump` call has no callback), so not
every minification-pipeline error is passed to the shared callback. -/
theorem C9_minify_css_no_callback :
    taskBody "minify-css" = some BodyKind.pumpNoCb ∧
    taskBody "minify-css" ≠ some BodyKind.pumpCb := by
  exact ⟨by decide, by decide⟩

/-- C10 (amended): if the script contains no occurrence of
`/*insert_redirect*/`, build-sw writes it back byte-for-byte unchanged (and,
being total, reports no error); if it contains several occurrences, only the
leftmost one is replaced — by the ECMAScript replacement-text image of the
compiled entries, which is the compiled entries themselves whenever they
contain no active `$`-sequence — and the later occurrences survive verbatim.
The concrete conjuncts show both behaviours. -/
theorem C10_placeholder_occurrences (text sw : List Char) :
    (¬ Occurs insertToken sw → buildSW text sw = sw) ∧
    (∀ pre mid post : List Char,
      sw = pre ++ insertToken ++ mid ++ insertToken ++ post →
      (∀ p q : List Char, sw = p ++ insertToken ++ q → pre.length ≤ p.length) →
      buildSW text sw =
        pre ++ getSub insertToken pre (mid ++ insertToken ++ post)
          (List.intercalate ",".toList (compile text)) ++ mid ++
          insertToken ++ post ∧
      (noSubstEscapes (List.intercalate ",".toList (compile text)) = true →
        buildSW text sw =
          pre ++ List.intercalate ",".toList (compile text) ++ mid ++
            insertToken ++ post)) ∧
    buildSW "/a /b 301".toList "no token".toList = "no token".toList ∧
    buildSW "/a /b 301".toList
        "x/*insert_redirect*/y/*insert_redirect*/z".toList =
      "x".toList ++ List.intercalate ",".toList (compile "/a /b 301".toList) ++
        "y".toList ++ insertToken ++ "z".toList := by
  refine ⟨?_, ?_, by decide, by decide⟩
  · intro h
    unfold buildSW jsReplaceFirst
    rw [firstSplit_none _ h]
  · intro pre mid post hsw hmin
    have hsw' : sw = pre ++ insertToken ++ (mid ++ insertToken ++ post) := by
      rw [hsw]; simp [List.append_assoc]
    have hfs : firstSplit insertToken sw =
        some (pre, mid ++ insertToken ++ post) := by
      rw [hsw']
      exact firstSplit_of_leftmost insertToken (p := pre)
        (mid ++ insertToken ++ post)
        (fun p' q' hh => hmin p' q' (by rw [hsw', hh]))
    have hgen : buildSW text sw =
        pre ++ getSub insertToken pre (mid ++ insertToken ++ post)
          (List.intercalate ",".toList (compile text)) ++ mid ++
          insertToken ++ post := by
      unfold buildSW jsReplaceFirst
      rw [hfs]
      show pre ++ getSub insertToken pre (mid ++ insertToken ++ post)
          (List.intercalate ",".toList (compile text)) ++
          (mid ++ insertToken ++ post) = _
      simp [List.append_assoc]
    refine ⟨hgen, fun hns => ?_⟩
    rw [hgen, getSub_id _ _ _ hns]

/-- C10 counterexample: for the table `/a /b$$ 301` and a script with two
placeholders, the first occurrence is replaced by the `$`-collapsed image of
the compiled entries — not by the compiled entries themselves — while the
second occurrence survives. -/
theorem C10_dollar_first_occurrence :
    buildSW "/a /b$$ 301".toList
        "x/*insert_redirect*/y/*insert_redirect*/z".toList ≠
      "x".toList ++ List.intercalate ",".toList (compile "/a /b$$ 301".toList) ++
        "y".toList ++ insertToken ++ "z".toList ∧
    buildSW "/a /b$$ 301".toList
        "x/*insert_redirect*/y/*insert_redirect*/z".toList =
      "x[/^\\/a/,".toList ++ (sq :: "/b$".toList) ++ sq ::
        ",301]y/*insert_redirect*/z".toList := by
  exact ⟨by decide, by decide⟩

end GulpBuild
